import Mathlib

set_option maxRecDepth 16384

/-! Verification of scripts/download_unity_windows_mono.py (UDGB repository).

The pipeline functions of the script are translated into executable Lean
definitions:

* `sanitize_version`  -- line 42-44: a model of the Python call
  `re.sub(r"[a-z]\d+$", "", version)`.  Python regex `$` matches either at the
  absolute end of the string or just before a single trailing newline, and the
  class `\d` is modelled by the ASCII digits (inputs are taken to be ASCII).
* `find_link` -- the pure search step of `fetch_installer_url` (lines 77-87):
  a direct model of `re.search` with the pattern built on line 78.  Note that
  the pattern source is a RAW f-string, so `\\.pkg` denotes regex
  backslash-backslash dot `pkg`, i.e. a literal backslash, then any character,
  then `pkg`.
* `fetch_installer_url` -- lines 51-87, with HTTP abstracted as an oracle
  `String → FetchResult`; the returned list records the page URLs requested in
  order.  An `HTTPError` escaping uncaught is `PyError.httpError`, a raised
  `DownloadError` is `PyError.downloadError`.
* `handle_errors` -- the `__main__` handler, lines 208-213.
* `locate_managed` -- lines 128-135, over the list of filesystem entries
  (path components relative to the payload root, plus an is-directory flag)
  in `rglob` traversal order.  The payload root itself is named `payload` in
  the script, so the parent name of a top-level candidate is modelled as a
  name that is never `"Data"` (the empty string).
* `make_zip` -- lines 138-150, over the list of regular files of the managed
  subtree, each given by its path components relative to the subtree root and
  its content bytes.  `sorted(...)` on `pathlib.Path` compares the tuple of
  path components, strings ordered lexicographically by code point; this is
  `partsLe` below, and the sort is the stable insertion sort.
-/

/-- ASCII lowercase letter, the class `[a-z]` of the regex on line 44. -/
def isLowerAZ (c : Char) : Bool :=
  decide (97 ≤ c.toNat) && decide (c.toNat ≤ 122)

/-- ASCII digit, modelling the class `\d` of the regex on line 44. -/
def isDigit09 (c : Char) : Bool :=
  decide (48 ≤ c.toNat) && decide (c.toNat ≤ 57)

/-- Core of the `[a-z]\d+$` substitution, working on the REVERSED subject
string: if the reversed string starts with one or more digits followed by a
lowercase letter, the unique match of `[a-z]\d+` anchored at the end exists,
and the reversed remainder is returned. -/
def stripRev (r : List Char) : Option (List Char) :=
  match r.dropWhile isDigit09 with
  | c :: rest =>
    if isLowerAZ c = true ∧ r.takeWhile isDigit09 ≠ [] then some rest else none
  | [] => none

/-- Model of `re.sub(r"[a-z]\d+$", "", l)` restricted to a match at the absolute end of
the string. -/
def stripSuffix (l : List Char) : List Char :=
  match stripRev l.reverse with
  | some rest => rest.reverse
  | none => l

/-- Whether `[a-z]\d+` matches at the absolute end of `l`. -/
def hasEndSuffix (l : List Char) : Bool :=
  (stripRev l.reverse).isSome

/-- Full model of `re.sub(r"[a-z]\d+$", "", l)`: Python `$` matches at the end
of the string, or just before a newline that is the last character; in the
latter case the newline survives the substitution.  (At most one substitution
can happen, because any match must end at one of those two positions.) -/
def sanitizeChars (l : List Char) : List Char :=
  if l.reverse.head? = some '\n' then stripSuffix l.dropLast ++ ['\n']
  else stripSuffix l

/-- Model of `sanitize_version` of the script (lines 42-44). -/
def sanitize_version (version : String) : String :=
  String.mk (sanitizeChars version.data)

/-- Whether the regex `[a-z]\d+$` matches somewhere in `v`, i.e. whether
`sanitize_version` changes `v`. -/
def endsWithBuildSuffix (v : String) : Bool :=
  if v.data.reverse.head? = some '\n' then hasEndSuffix v.data.dropLast
  else hasEndSuffix v.data

/-- Line 33 of the script. -/
def UNITY_WHATS_NEW_URL : String := "https://unity.com/releases/editor/whats-new/"

/-- Line 34 of the script. -/
def UNITY_DOWNLOAD_HOST : String := "https://download.unity3d.com/download_unity/"

/-- The literal filename marker inside the pattern on line 78. -/
def markerChars : List Char := "UnitySetup-Windows-Mono-Support-for-Editor-".data

/-- The trailing literal `pkg` of the pattern on line 78. -/
def pkgChars : List Char := "pkg".data

/-- Case-insensitive character comparison (`re.IGNORECASE`, ASCII case). -/
def lcEq (a b : Char) : Bool := decide (a.toLower = b.toLower)

/-- The class `[0-9a-f]` under `re.IGNORECASE` (also matches `A`-`F`). -/
def isHexDigitCI (c : Char) : Bool :=
  (decide (48 ≤ c.toNat) && decide (c.toNat ≤ 57)) ||
    (decide (97 ≤ c.toNat) && decide (c.toNat ≤ 102)) ||
    (decide (65 ≤ c.toNat) && decide (c.toNat ≤ 70))

/-- Match a literal (case-insensitively) at the front of `s`; return the rest
of `s` on success. -/
def litMatch : List Char → List Char → Option (List Char)
  | [], s => some s
  | _ :: _, [] => none
  | c :: cs, d :: ds => if lcEq c d = true then litMatch cs ds else none

/-- Match the tail of the line-78 pattern at the front of `s`:
the marker literal, the version literal, then `\\` (one literal backslash),
then `.` (any character except newline), then the literal `pkg`. -/
def tailMatch (v : List Char) (s : List Char) : Option (List Char) :=
  match litMatch (markerChars ++ v) s with
  | some (c :: d :: s2) =>
    if c = '\\' ∧ d ≠ '\n' then litMatch pkgChars s2 else none
  | _ => none

/-- The lazy `.+?` of the pattern followed by `tailMatch`: consume at least one
non-newline character, preferring the shortest prefix whose continuation
matches the tail. -/
def lazyDot (v : List Char) : List Char → Option (List Char)
  | [] => none
  | c :: s =>
    if c = '\n' then none
    else
      match tailMatch v s with
      | some r => some r
      | none => lazyDot v s

/-- Match the whole line-78 pattern at the front of `s`.  The greedy
`[0-9a-f]+` needs no backtracking: the character after the chosen run must be
the literal `/`, which is not a hex digit, so only the maximal run can
succeed. -/
def matchAt (v : List Char) (s : List Char) : Option (List Char) :=
  match litMatch UNITY_DOWNLOAD_HOST.data s with
  | some s1 =>
    match s1.dropWhile isHexDigitCI with
    | c :: s2 =>
      if c = '/' ∧ s1.takeWhile isHexDigitCI ≠ [] then lazyDot v s2 else none
    | [] => none
  | none => none

/-- Model of `re.search`: try the pattern at each position from the left; on success
return the matched substring (`match.group(0)`). -/
def searchPattern (v : List Char) : List Char → Option (List Char)
  | [] =>
    match matchAt v [] with
    | some _ => some []
    | none => none
  | c :: t =>
    match matchAt v (c :: t) with
    | some rest => some ((c :: t).take ((c :: t).length - rest.length))
    | none => searchPattern v t

/-- Message of line 83. -/
def linkNotFoundMsg : String := "Unable to locate the Windows Mono support download link."

/-- The pure part of `fetch_installer_url` (lines 77-87): search the fetched
page text for the pattern; return the matched substring or fail. -/
def find_link (version : String) (html : String) : Except String String :=
  match searchPattern version.data html.data with
  | some u => Except.ok (String.mk u)
  | none => Except.error linkNotFoundMsg

/-- Result of one `urllib.request.urlopen` call, abstracted: the decoded body
text, or an `HTTPError` with its status code. -/
inductive FetchResult where
  | ok (body : String)
  | httpError (code : Nat)
  deriving DecidableEq

/-- An exception escaping a pipeline function: a raised `DownloadError`, or an
`urllib HTTPError` that nothing converted. -/
inductive PyError where
  | downloadError (msg : String)
  | httpError (code : Nat)
  deriving DecidableEq

/-- The page URL built on line 53 (and line 66 for the fallback). -/
def pageUrl (version : String) : String :=
  UNITY_WHATS_NEW_URL ++ version ++ "#installs"

/-- Message of line 75 for an `HTTPError` with the given code. -/
def fetchFailMsg (code : Nat) : String :=
  "Failed to fetch release page: HTTP Error " ++ toString code

/-- Model of `fetch_installer_url` (lines 51-87) over an HTTP oracle.  Returns the
result together with the list of page URLs requested, in order.  A 404 on the
primary page triggers exactly one retry at the fallback URL built from the
sanitized version; the fallback `urlopen` on line 72 is NOT inside any `try`,
so an `HTTPError` it raises propagates as `PyError.httpError`; any other
non-success status on the primary fetch raises `DownloadError` (line 75). -/
def fetch_installer_url (http : String → FetchResult) (version : String) :
    Except PyError String × List String :=
  match http (pageUrl version) with
  | FetchResult.ok html =>
    ((find_link version html).mapError PyError.downloadError, [pageUrl version])
  | FetchResult.httpError code =>
    if code = 404 then
      match http (pageUrl (sanitize_version version)) with
      | FetchResult.ok html =>
        ((find_link version html).mapError PyError.downloadError,
          [pageUrl version, pageUrl (sanitize_version version)])
      | FetchResult.httpError c =>
        (Except.error (PyError.httpError c),
          [pageUrl version, pageUrl (sanitize_version version)])
    else
      (Except.error (PyError.downloadError (fetchFailMsg code)), [pageUrl version])

/-- Outcome of the whole process: a `SystemExit` with a code, or an exception
that no handler caught. -/
inductive ProcOutcome where
  | exit (code : Nat)
  | uncaught (e : PyError)
  deriving DecidableEq

/-- The `__main__` block (lines 208-213): `main()`'s return value becomes the
exit code; a `DownloadError` is caught and mapped to exit code 1; every other
exception propagates uncaught. -/
def handle_errors (r : Except PyError Nat) : ProcOutcome :=
  match r with
  | Except.ok n => ProcOutcome.exit n
  | Except.error (PyError.downloadError _) => ProcOutcome.exit 1
  | Except.error e => ProcOutcome.uncaught e

/-- An HTTP oracle whose primary page for version `9.9.9f1` is missing (404)
and whose fallback page request fails with a 500. -/
def http404then500 : String → FetchResult := fun u =>
  if u = pageUrl "9.9.9f1" then FetchResult.httpError 404 else FetchResult.httpError 500

/-- A regular file of the managed subtree: its path components relative to the
subtree root (`rglob` yields at least one component), and its bytes. -/
structure SrcFile where
  parts : List String
  content : List Nat
  deriving DecidableEq

/-- Model of `path.name`: the last path component. -/
def baseName (f : SrcFile) : String := f.parts.getLastD ""

/-- Code points of a string, the key Python compares strings by. -/
def strKey (s : String) : List Nat := s.data.map Char.toNat

/-- Lexicographic strict order on code-point lists (Python string `<`). -/
def natListLt : List Nat → List Nat → Bool
  | [], [] => false
  | [], _ :: _ => true
  | _ :: _, [] => false
  | a :: as, b :: bs =>
    if a < b then true else if b < a then false else natListLt as bs

/-- Model of `pathlib.PurePath` comparison: tuples of components compared element-wise,
components compared as strings; this is the non-strict lexicographic order
used (via `sorted`) by `make_zip`. -/
def partsLe : List String → List String → Bool
  | [], _ => true
  | _ :: _, [] => false
  | a :: as, b :: bs =>
    if natListLt (strKey a) (strKey b) then true
    else if natListLt (strKey b) (strKey a) then false
    else partsLe as bs

/-- Order on source files: by full relative path. -/
def fileLe (f g : SrcFile) : Prop := partsLe f.parts g.parts = true

instance : DecidableRel fileLe := fun f g =>
  inferInstanceAs (Decidable (partsLe f.parts g.parts = true))

/-- Model of `sorted(path for path in managed_dir.rglob("*") if path.is_file())` on
line 139: a stable sort by full path (insertion sort is stable, like Python's
`sorted`). -/
def sortFiles (files : List SrcFile) : List SrcFile :=
  List.insertionSort fileLe files

/-- Zip storage method; the archive on line 144 is opened with
`compression=zipfile.ZIP_DEFLATED`. -/
inductive ZMethod where
  | stored
  | deflated
  deriving DecidableEq

/-- One entry of the output archive: `zf.write(file_path, arcname=name)` with
the archive-wide compression method. -/
structure ZipEntry where
  name : String
  content : List Nat
  method : ZMethod
  deriving DecidableEq

/-- The entry written for a source file: base name only, identical bytes. -/
def entryOf (f : SrcFile) : ZipEntry :=
  { name := baseName f, content := f.content, method := ZMethod.deflated }

/-- Message of line 148 for a duplicate base name. -/
def dupMsgFor (name : String) : String :=
  "Duplicate file name encountered: " ++ name

/-- Message of line 141. -/
def emptyMsg : String := "Managed directory is empty; nothing to package."

/-- The loop of lines 145-150: walk the (already sorted) files, tracking the
set of base names seen; fail on a duplicate, otherwise emit the entries in
order. -/
def addEntries : List SrcFile → List String → Except String (List ZipEntry)
  | [], _ => Except.ok []
  | f :: fs, seen =>
    if baseName f ∈ seen then Except.error (dupMsgFor (baseName f))
    else
      match addEntries fs (baseName f :: seen) with
      | Except.ok entries => Except.ok (entryOf f :: entries)
      | Except.error m => Except.error m

/-- Model of `make_zip` (lines 138-150): sort all regular files by full path, fail if
there are none (this check precedes opening the archive), then write one entry
per file named by base name, failing on the first duplicate base name. -/
def make_zip (files : List SrcFile) : Except String (List ZipEntry) :=
  match sortFiles files with
  | [] => Except.error emptyMsg
  | f :: fs => addEntries (f :: fs) []

/-- The spec's duplicate example `a/x.dll`. -/
def fileAX : SrcFile := { parts := ["a", "x.dll"], content := [1, 2, 3] }

/-- The spec's duplicate example `b/x.dll`. -/
def fileBX : SrcFile := { parts := ["b", "x.dll"], content := [4, 5] }

/-- The spec's round-trip example `Foo.dll`. -/
def fileFoo : SrcFile := { parts := ["Foo.dll"], content := [10, 20] }

/-- The spec's round-trip example `Bar.dll`. -/
def fileBar : SrcFile := { parts := ["Bar.dll"], content := [30] }

/-- A filesystem entry of the payload tree, in `rglob` traversal order: path
components relative to the payload root, and whether it is a directory. -/
structure FsEntry where
  parts : List String
  isDir : Bool
  deriving DecidableEq

/-- Candidate of line 129: a directory whose base name is exactly `Managed`
(`rglob` pattern matching is case-sensitive). -/
def isManagedCandidate (e : FsEntry) : Bool :=
  e.isDir && (e.parts.getLastD "" == "Managed")

/-- Model of `path.parent.name`; the payload root's own name is modelled as `""`
(the real root is named `payload`, which is likewise never `"Data"`). -/
def parentNameOf (parts : List String) : String :=
  parts.dropLast.getLastD ""

/-- The test of line 131: the immediate parent directory is named `Data`. -/
def parentIsData (p : List String) : Bool := parentNameOf p == "Data"

/-- A candidate whose immediate parent directory is named `Data` (line 131). -/
def candData (e : FsEntry) : Bool :=
  isManagedCandidate e && parentIsData e.parts

/-- Message of line 135. -/
def managedNotFoundMsg : String := "Managed directory not found inside payload."

/-- Model of `locate_managed` (lines 128-135): collect the directory candidates named
`Managed` in traversal order; return the first one whose parent is named
`Data`, else the first candidate, else fail. -/
def locate_managed (entries : List FsEntry) : Except String (List String) :=
  let candidates := (entries.filter isManagedCandidate).map FsEntry.parts
  match candidates.find? parentIsData with
  | some m => Except.ok m
  | none =>
    match candidates with
    | c :: _ => Except.ok c
    | [] => Except.error managedNotFoundMsg

/-- Two candidates named `Managed`, the preferred (`Data`-parented) one listed
after the other one in traversal order. -/
def demoEntries : List FsEntry :=
  [{ parts := ["Other"], isDir := true },
   { parts := ["Other", "Managed"], isDir := true },
   { parts := ["Data"], isDir := true },
   { parts := ["Data", "Managed"], isDir := true }]

/-- A page text containing a well-formed installer URL for `6000.0.58f2`
(and no backslash anywhere, like any real release page). -/
def goodPage : String :=
  "<a href=https://download.unity3d.com/download_unity/0123abcdef/MacEditorTargetInstaller/UnitySetup-Windows-Mono-Support-for-Editor-6000.0.58f2.pkg>dl</a>"

theorem lower_not_digit {c : Char} (hc : isLowerAZ c = true) : isDigit09 c = false := by
  simp only [isLowerAZ, Bool.and_eq_true, decide_eq_true_eq] at hc
  simp only [isDigit09, Bool.and_eq_false_iff, decide_eq_false_iff_not]
  omega

theorem digit_ne_newline {c : Char} (hc : isDigit09 c = true) : c ≠ '\n' := by
  intro h
  subst h
  simp [isDigit09] at hc

theorem mem_takeWhile_pred {q : Char → Bool} :
    ∀ (l : List Char) (x : Char), x ∈ l.takeWhile q → q x = true := by
  intro l
  induction l with
  | nil => intro x hx; simp [List.takeWhile] at hx
  | cons a t ih =>
    intro x hx
    rw [List.takeWhile_cons] at hx
    by_cases hq : q a
    · rw [if_pos hq] at hx
      rcases List.mem_cons.mp hx with h | h
      · rw [h]; exact hq
      · exact ih x h
    · rw [if_neg hq] at hx
      exact absurd hx (List.not_mem_nil x)

theorem tw_dw_append {q : Char → Bool} :
    ∀ (l1 : List Char) (c : Char) (l2 : List Char),
      (∀ x ∈ l1, q x = true) → q c = false →
      (l1 ++ c :: l2).takeWhile q = l1 ∧ (l1 ++ c :: l2).dropWhile q = c :: l2 := by
  intro l1
  induction l1 with
  | nil =>
    intro c l2 _ hc
    constructor
    · rw [List.nil_append, List.takeWhile_cons, if_neg (by simp [hc])]
    · rw [List.nil_append, List.dropWhile_cons, if_neg (by simp [hc])]
  | cons a t ih =>
    intro c l2 hall hc
    have ha : q a = true := hall a (List.mem_cons_self a t)
    have ht := ih c l2 (fun x hx => hall x (List.mem_cons_of_mem a hx)) hc
    constructor
    · rw [List.cons_append, List.takeWhile_cons, if_pos (by simp [ha]), ht.1]
    · rw [List.cons_append, List.dropWhile_cons, if_pos (by simp [ha]), ht.2]

theorem dropLast_app_single : ∀ (l : List Char) (a : Char), (l ++ [a]).dropLast = l := by
  intro l
  induction l with
  | nil => intro a; rfl
  | cons x t ih =>
    intro a
    rw [List.cons_append]
    cases h : t ++ [a] with
    | nil => exact absurd h (by simp)
    | cons y u =>
      rw [List.dropLast_cons₂, ← h, ih a]

theorem stripRev_pos {ds rest : List Char} {c : Char}
    (hc : isLowerAZ c = true) (hne : ds ≠ [])
    (hds : ∀ d ∈ ds, isDigit09 d = true) :
    stripRev (ds ++ c :: rest) = some rest := by
  have h := tw_dw_append ds c rest hds (lower_not_digit hc)
  rw [stripRev, h.2, h.1]
  show (if isLowerAZ c = true ∧ ds ≠ [] then some rest else none) = some rest
  rw [if_pos ⟨hc, hne⟩]

theorem stripRev_eq_some {r rest : List Char} (h : stripRev r = some rest) :
    ∃ ds c, isLowerAZ c = true ∧ ds ≠ [] ∧ (∀ d ∈ ds, isDigit09 d = true) ∧
      r = ds ++ c :: rest := by
  rw [stripRev] at h
  cases hd : r.dropWhile isDigit09 with
  | nil => rw [hd] at h; exact absurd h (by simp)
  | cons c rest' =>
    rw [hd] at h
    have h2 : (if isLowerAZ c = true ∧ r.takeWhile isDigit09 ≠ [] then some rest'
        else none) = some rest := h
    by_cases hcond : isLowerAZ c = true ∧ r.takeWhile isDigit09 ≠ []
    · rw [if_pos hcond] at h2
      have hr : rest' = rest := by simpa using h2
      subst hr
      refine ⟨r.takeWhile isDigit09, c, hcond.1, hcond.2, ?_, ?_⟩
      · intro d hdm; exact mem_takeWhile_pred r d hdm
      · rw [← hd, List.takeWhile_append_dropWhile]
    · rw [if_neg hcond] at h2
      exact absurd h2 (by simp)

theorem rev_app_cons (p : List Char) (c : Char) (ds : List Char) :
    (p ++ c :: ds).reverse = ds.reverse ++ c :: p.reverse := by
  rw [List.reverse_append, List.reverse_cons, List.append_assoc, List.singleton_append]

theorem stripSuffix_of_shape {p ds : List Char} {c : Char}
    (hc : isLowerAZ c = true) (hne : ds ≠ [])
    (hds : ∀ d ∈ ds, isDigit09 d = true) :
    stripSuffix (p ++ c :: ds) = p := by
  rw [stripSuffix, rev_app_cons,
    stripRev_pos hc (by simpa using hne) (fun d hdm => hds d (List.mem_reverse.mp hdm))]
  show p.reverse.reverse = p
  rw [List.reverse_reverse]

theorem hasEndSuffix_of_shape {p ds : List Char} {c : Char}
    (hc : isLowerAZ c = true) (hne : ds ≠ [])
    (hds : ∀ d ∈ ds, isDigit09 d = true) :
    hasEndSuffix (p ++ c :: ds) = true := by
  rw [hasEndSuffix, rev_app_cons,
    stripRev_pos hc (by simpa using hne) (fun d hdm => hds d (List.mem_reverse.mp hdm))]
  rfl

theorem stripSuffix_id {l : List Char} (h : hasEndSuffix l = false) :
    stripSuffix l = l := by
  rw [hasEndSuffix] at h
  rw [stripSuffix]
  cases hs : stripRev l.reverse with
  | none => rfl
  | some rest => rw [hs] at h; exact absurd h (by simp)

theorem stripSuffix_shape_of_has {l : List Char} (h : hasEndSuffix l = true) :
    ∃ p c ds, isLowerAZ c = true ∧ ds ≠ [] ∧ (∀ d ∈ ds, isDigit09 d = true) ∧
      l = p ++ c :: ds ∧ stripSuffix l = p := by
  rw [hasEndSuffix] at h
  cases hs : stripRev l.reverse with
  | none => rw [hs] at h; exact absurd h (by simp)
  | some rest =>
    obtain ⟨ds, c, hc, hne, hds, hr⟩ := stripRev_eq_some hs
    refine ⟨rest.reverse, c, ds.reverse, hc, by simpa using hne,
      fun d hdm => hds d (List.mem_reverse.mp hdm), ?_, ?_⟩
    · have : l.reverse.reverse = (ds ++ c :: rest).reverse := by rw [hr]
      rw [List.reverse_reverse, rev_app_cons] at this
      exact this
    · rw [stripSuffix, hs]

theorem rev_head_decomp {l : List Char} {a : Char} {t : List Char}
    (h : l.reverse = a :: t) : l = t.reverse ++ [a] ∧ l.dropLast = t.reverse := by
  have hl : l = t.reverse ++ [a] := by
    have : l.reverse.reverse = (a :: t).reverse := by rw [h]
    rw [List.reverse_reverse, List.reverse_cons] at this
    exact this
  exact ⟨hl, by rw [hl, dropLast_app_single]⟩

theorem sanitize_id_of_clean (v : String) (h : endsWithBuildSuffix v = false) :
    sanitize_version v = v := by
  rw [endsWithBuildSuffix] at h
  rw [sanitize_version, sanitizeChars]
  by_cases hh : v.data.reverse.head? = some '\n'
  · rw [if_pos hh] at h ⊢
    rw [stripSuffix_id h]
    cases hr : v.data.reverse with
    | nil => rw [hr] at hh; exact absurd hh (by simp)
    | cons a t =>
      rw [hr] at hh
      have ha : a = '\n' := by simpa using hh
      obtain ⟨hl, hdl⟩ := rev_head_decomp hr
      rw [hdl, ← ha, ← hl]
  · rw [if_neg hh] at h ⊢
    rw [stripSuffix_id h]

/-- Claim C1 (corrected), counterexample: normalization is NOT idempotent on
every string; `re.sub(r"[a-z]\d+$", "", ...)` maps `a1b2` to `a1`, which a
second application maps to the empty string. -/
theorem sanitize_version_not_idempotent :
    sanitize_version (sanitize_version "a1b2") ≠ sanitize_version "a1b2" ∧
    sanitize_version "a1b2" = "a1" ∧ sanitize_version (sanitize_version "a1b2") = "" := by
  refine ⟨?_, by decide, by decide⟩
  decide

/-- Claim C1 (amended): normalization is idempotent at every version string
whose normalized form itself carries no trailing lowercase-letter-plus-digits
run (at its end or just before a trailing newline); normalizing such an
already-normalized string returns it unchanged. -/
theorem sanitize_version_idempotent_on_clean :
    ∀ v : String, endsWithBuildSuffix (sanitize_version v) = false →
      sanitize_version (sanitize_version v) = sanitize_version v :=
  fun v h => sanitize_id_of_clean (sanitize_version v) h

theorem sanitize_version_idempotent_on_clean_witness :
    endsWithBuildSuffix (sanitize_version "6000.0.58f2") = false ∧
    sanitize_version (sanitize_version "6000.0.58f2") = sanitize_version "6000.0.58f2" :=
  ⟨by decide, sanitize_version_idempotent_on_clean "6000.0.58f2" (by decide)⟩

theorem sanitizeChars_strips_end {p ds : List Char} {c : Char}
    (hc : isLowerAZ c = true) (hne : ds ≠ [])
    (hds : ∀ d ∈ ds, isDigit09 d = true) :
    sanitizeChars (p ++ c :: ds) = p := by
  obtain ⟨d, ds', hd⟩ : ∃ d ds', ds.reverse = d :: ds' := by
    cases hr : ds.reverse with
    | nil => exact absurd (by simpa using hr) hne
    | cons d ds' => exact ⟨d, ds', rfl⟩
  have hdm : d ∈ ds := List.mem_reverse.mp (hd ▸ List.mem_cons_self d ds')
  have hdig : isDigit09 d = true := hds d hdm
  rw [sanitizeChars, rev_app_cons, hd]
  rw [if_neg (by simp [Option.some_inj]; exact fun h => absurd h (digit_ne_newline hdig))]
  exact stripSuffix_of_shape hc hne hds

theorem sanitizeChars_strips_before_newline {p ds : List Char} {c : Char}
    (hc : isLowerAZ c = true) (hne : ds ≠ [])
    (hds : ∀ d ∈ ds, isDigit09 d = true) :
    sanitizeChars ((p ++ c :: ds) ++ ['\n']) = p ++ ['\n'] := by
  rw [sanitizeChars, List.reverse_append]
  have hh : (['\n'] : List Char).reverse ++ (p ++ c :: ds).reverse =
      '\n' :: (p ++ c :: ds).reverse := rfl
  rw [hh, List.head?_cons, if_pos rfl, dropLast_app_single,
    stripSuffix_of_shape hc hne hds]

theorem endsWithBuildSuffix_iff (v : String) :
    endsWithBuildSuffix v = true ↔
      ∃ p c ds, isLowerAZ c = true ∧ ds ≠ [] ∧ (∀ d ∈ ds, isDigit09 d = true) ∧
        (v.data = p ++ c :: ds ∨ v.data = (p ++ c :: ds) ++ ['\n']) := by
  constructor
  · intro h
    rw [endsWithBuildSuffix] at h
    by_cases hh : v.data.reverse.head? = some '\n'
    · rw [if_pos hh] at h
      cases hr : v.data.reverse with
      | nil => rw [hr] at hh; exact absurd hh (by simp)
      | cons a t =>
        rw [hr] at hh
        have ha : a = '\n' := by simpa using hh
        obtain ⟨hl, hdl⟩ := rev_head_decomp hr
        rw [hdl] at h
        obtain ⟨p, c, ds, hc, hne, hds, hshape, _⟩ := stripSuffix_shape_of_has h
        exact ⟨p, c, ds, hc, hne, hds, Or.inr (by rw [hl, ha, hshape])⟩
    · rw [if_neg hh] at h
      obtain ⟨p, c, ds, hc, hne, hds, hshape, _⟩ := stripSuffix_shape_of_has h
      exact ⟨p, c, ds, hc, hne, hds, Or.inl hshape⟩
  · rintro ⟨p, c, ds, hc, hne, hds, hshape | hshape⟩
    · obtain ⟨d, ds', hd⟩ : ∃ d ds', ds.reverse = d :: ds' := by
        cases hr : ds.reverse with
        | nil => exact absurd (by simpa using hr) hne
        | cons d ds' => exact ⟨d, ds', rfl⟩
      have hdig : isDigit09 d = true :=
        hds d (List.mem_reverse.mp (hd ▸ List.mem_cons_self d ds'))
      have hdne : d ≠ '\n' := digit_ne_newline hdig
      rw [endsWithBuildSuffix, hshape, rev_app_cons, hd, List.cons_append,
        List.head?_cons, if_neg (by simpa using hdne)]
      exact hasEndSuffix_of_shape hc hne hds
    · rw [endsWithBuildSuffix, hshape, List.reverse_append]
      have hh : (['\n'] : List Char).reverse ++ (p ++ c :: ds).reverse =
          '\n' :: (p ++ c :: ds).reverse := rfl
      rw [hh, List.head?_cons, if_pos rfl, dropLast_app_single]
      exact hasEndSuffix_of_shape hc hne hds

/-- Claim C7 (corrected), counterexample: the string `a1` followed by a
newline has no trailing lowercase-letter-plus-digits run at its end, yet
`sanitize_version` changes it (Python `$` also matches just before a trailing
newline, so `re.sub(r"[a-z]\d+$", "", "a1\n")` is `"\n"`). -/
theorem sanitize_version_changes_clean_string :
    (¬ ∃ p c ds, isLowerAZ c = true ∧ ds ≠ [] ∧ (∀ d ∈ ds, isDigit09 d = true) ∧
        ("a1\n").data = p ++ c :: ds) ∧
    sanitize_version "a1\n" = "\n" ∧ sanitize_version "a1\n" ≠ "a1\n" := by
  refine ⟨?_, by decide, by decide⟩
  rintro ⟨p, c, ds, hc, hne, hds, heq⟩
  have h1 : hasEndSuffix (("a1\n").data) = true := heq ▸ hasEndSuffix_of_shape hc hne hds
  exact absurd h1 (by decide)

/-- Claim C7 (amended): `sanitize_version` removes a trailing run of one
lowercase letter plus one or more digits, where the run may sit at the very
end of the string or just before a single trailing newline (the two positions
Python's `$` anchor matches); a string with no such run in either position is
returned unchanged, and `endsWithBuildSuffix` decides exactly when such a run
exists.  In particular `6000.0.58f2` normalizes to `6000.0.58` and
`6000.0.58` is unchanged. -/
theorem sanitize_version_spec :
    (∀ p c ds, isLowerAZ c = true → ds ≠ [] → (∀ d ∈ ds, isDigit09 d = true) →
      sanitizeChars (p ++ c :: ds) = p) ∧
    (∀ p c ds, isLowerAZ c = true → ds ≠ [] → (∀ d ∈ ds, isDigit09 d = true) →
      sanitizeChars ((p ++ c :: ds) ++ ['\n']) = p ++ ['\n']) ∧
    (∀ v : String, endsWithBuildSuffix v = false → sanitize_version v = v) ∧
    (∀ v : String, endsWithBuildSuffix v = true ↔
      ∃ p c ds, isLowerAZ c = true ∧ ds ≠ [] ∧ (∀ d ∈ ds, isDigit09 d = true) ∧
        (v.data = p ++ c :: ds ∨ v.data = (p ++ c :: ds) ++ ['\n'])) ∧
    sanitize_version "6000.0.58f2" = "6000.0.58" ∧
    sanitize_version "6000.0.58" = "6000.0.58" :=
  ⟨fun _ _ _ hc hne hds => sanitizeChars_strips_end hc hne hds,
    fun _ _ _ hc hne hds => sanitizeChars_strips_before_newline hc hne hds,
    sanitize_id_of_clean, endsWithBuildSuffix_iff, by decide, by decide⟩

theorem sanitize_version_spec_witness :
    sanitizeChars ("6000.0.58".data ++ 'f' :: "2".data) = "6000.0.58".data ∧
    sanitizeChars (("6000.0.58".data ++ 'f' :: "2".data) ++ ['\n']) =
      "6000.0.58".data ++ ['\n'] ∧
    sanitize_version "1.2.3" = "1.2.3" :=
  ⟨sanitize_version_spec.1 "6000.0.58".data 'f' "2".data (by decide) (by decide) (by decide),
    sanitize_version_spec.2.1 "6000.0.58".data 'f' "2".data (by decide) (by decide)
      (by decide),
    sanitize_version_spec.2.2.1 "1.2.3" (by decide)⟩

theorem stripSuffix_is_prefix (l : List Char) : ∃ t, stripSuffix l ++ t = l := by
  cases hs : stripRev l.reverse with
  | none => exact ⟨[], by rw [stripSuffix, hs, List.append_nil]⟩
  | some rest =>
    obtain ⟨ds, c, _, _, _, hr⟩ := stripRev_eq_some hs
    refine ⟨c :: ds.reverse, ?_⟩
    rw [stripSuffix, hs]
    have : l.reverse.reverse = (ds ++ c :: rest).reverse := by rw [hr]
    rw [List.reverse_reverse, rev_app_cons] at this
    rw [this]

/-- Claim C9 (corrected), counterexample: the normalized form is NOT always a
prefix of the input; for `a1` followed by a newline the substitution removes
the interior run `a1` and keeps the trailing newline. -/
theorem sanitize_version_not_prefix :
    sanitize_version "a1\n" = "\n" ∧
    ¬ ((sanitize_version "a1\n").data <+: ("a1\n").data) := by
  exact ⟨by decide, by decide⟩

/-- Claim C9 (amended): for every string not ending in a newline the
normalized form is a prefix of the input, and for every string the normalized
form is at most as long as the input. -/
theorem sanitize_version_prefix_bound :
    (∀ v : String, v.data.reverse.head? ≠ some '\n' →
      (sanitize_version v).data <+: v.data) ∧
    (∀ v : String, (sanitize_version v).length ≤ v.length) := by
  constructor
  · intro v hh
    show sanitizeChars v.data <+: v.data
    rw [sanitizeChars, if_neg hh]
    exact stripSuffix_is_prefix v.data
  · intro v
    show (sanitizeChars v.data).length ≤ v.data.length
    rw [sanitizeChars]
    by_cases hh : v.data.reverse.head? = some '\n'
    · rw [if_pos hh]
      have hnn : v.data ≠ [] := by
        intro h0
        rw [h0] at hh
        exact absurd hh (by decide)
      obtain ⟨t, ht⟩ := stripSuffix_is_prefix v.data.dropLast
      have h1 : (stripSuffix v.data.dropLast).length + t.length = v.data.dropLast.length := by
        rw [← List.length_append, ht]
      have h2 : v.data.dropLast.length = v.data.length - 1 := List.length_dropLast v.data
      have h3 : 0 < v.data.length := List.length_pos.mpr hnn
      rw [List.length_append]
      simp only [List.length_cons, List.length_nil]
      omega
    · rw [if_neg hh]
      obtain ⟨t, ht⟩ := stripSuffix_is_prefix v.data
      have h1 : (stripSuffix v.data).length + t.length = v.data.length := by
        rw [← List.length_append, ht]
      omega

theorem sanitize_version_prefix_bound_witness :
    (sanitize_version "6000.0.58f2").data <+: ("6000.0.58f2").data ∧
    (sanitize_version "6000.0.58f2").length ≤ ("6000.0.58f2").length :=
  ⟨sanitize_version_prefix_bound.1 "6000.0.58f2" (by decide),
    sanitize_version_prefix_bound.2 "6000.0.58f2"⟩

theorem litMatch_app {pat : List Char} :
    ∀ {s r : List Char}, litMatch pat s = some r → ∃ t, s = t ++ r := by
  induction pat with
  | nil =>
    intro s r h
    exact ⟨[], by simpa [litMatch] using (by simpa [litMatch] using h : s = r)⟩
  | cons c cs ih =>
    intro s r h
    cases s with
    | nil => exact absurd h (by simp [litMatch])
    | cons d ds =>
      rw [litMatch] at h
      by_cases hq : lcEq c d = true
      · rw [if_pos hq] at h
        obtain ⟨t, ht⟩ := ih h
        exact ⟨d :: t, by rw [List.cons_append, ht]⟩
      · rw [if_neg hq] at h
        exact absurd h (by simp)

theorem tailMatch_bs {v s r : List Char} (h : tailMatch v s = some r) : '\\' ∈ s := by
  rw [tailMatch] at h
  cases hm : litMatch (markerChars ++ v) s with
  | none => rw [hm] at h; exact absurd h (by simp)
  | some s1 =>
    rw [hm] at h
    obtain ⟨t, ht⟩ := litMatch_app hm
    cases s1 with
    | nil => exact absurd h (by simp)
    | cons c s1' =>
      cases s1' with
      | nil => exact absurd h (by simp)
      | cons d s2 =>
        have h2 : (if c = '\\' ∧ d ≠ '\n' then litMatch pkgChars s2 else none) =
            some r := h
        by_cases hcond : c = '\\' ∧ d ≠ '\n'
        · rw [ht, hcond.1]
          exact List.mem_append_right t (List.mem_cons_self '\\' (d :: s2))
        · rw [if_neg hcond] at h2
          exact absurd h2 (by simp)

theorem lazyDot_bs {v : List Char} :
    ∀ {s r : List Char}, lazyDot v s = some r → '\\' ∈ s := by
  intro s
  induction s with
  | nil => intro r h; exact absurd h (by simp [lazyDot])
  | cons c t ih =>
    intro r h
    rw [lazyDot] at h
    by_cases hc : c = '\n'
    · rw [if_pos hc] at h; exact absurd h (by simp)
    · rw [if_neg hc] at h
      cases hm : tailMatch v t with
      | some u => exact List.mem_cons_of_mem c (tailMatch_bs hm)
      | none =>
        rw [hm] at h
        exact List.mem_cons_of_mem c (ih h)

theorem matchAt_bs {v s r : List Char} (h : matchAt v s = some r) : '\\' ∈ s := by
  rw [matchAt] at h
  cases hl : litMatch UNITY_DOWNLOAD_HOST.data s with
  | none => rw [hl] at h; exact absurd h (by simp)
  | some s1 =>
    rw [hl] at h
    have h1 : (match s1.dropWhile isHexDigitCI with
        | c :: s2 =>
          if c = '/' ∧ s1.takeWhile isHexDigitCI ≠ [] then lazyDot v s2 else none
        | [] => none) = some r := h
    obtain ⟨t, ht⟩ := litMatch_app hl
    cases hd : s1.dropWhile isHexDigitCI with
    | nil => rw [hd] at h1; exact absurd h1 (by simp)
    | cons c s2 =>
      rw [hd] at h1
      have h2 : (if c = '/' ∧ s1.takeWhile isHexDigitCI ≠ [] then lazyDot v s2
          else none) = some r := h1
      by_cases hcond : c = '/' ∧ s1.takeWhile isHexDigitCI ≠ []
      · rw [if_pos hcond] at h2
        have hbs2 : '\\' ∈ s2 := lazyDot_bs h2
        have hbs1 : '\\' ∈ s1 := by
          have hsplit : s1.takeWhile isHexDigitCI ++ c :: s2 = s1 := by
            rw [← hd, List.takeWhile_append_dropWhile]
          rw [← hsplit]
          exact List.mem_append_right _ (List.mem_cons_of_mem c hbs2)
        rw [ht]
        exact List.mem_append_right t hbs1
      · rw [if_neg hcond] at h2
        exact absurd h2 (by simp)

theorem searchPattern_bs {v : List Char} :
    ∀ {page r : List Char}, searchPattern v page = some r → '\\' ∈ page := by
  intro page
  induction page with
  | nil =>
    intro r h
    rw [searchPattern] at h
    cases hm : matchAt v [] with
    | some u => exact matchAt_bs hm
    | none => rw [hm] at h; exact absurd h (by simp)
  | cons c t ih =>
    intro r h
    rw [searchPattern] at h
    cases hm : matchAt v (c :: t) with
    | some u => exact matchAt_bs hm
    | none =>
      rw [hm] at h
      exact List.mem_cons_of_mem c (ih h)

/-- Claim C3 (code bug): the pattern on line 78 is built in a RAW f-string, so
its tail reads backslash-backslash dot `pkg`: regex-escaped literal backslash,
then any character, then `pkg`.  Every match therefore must contain a literal
backslash, so on any page text without a backslash — in particular a page
containing a perfectly well-formed
`https://download.unity3d.com/download_unity/<hex>/...-<version>.pkg` link —
the search finds nothing and the function fails with the link-not-found error,
contradicting the documented intent of returning the first such URL. -/
theorem find_link_requires_backslash :
    ∀ (version html : String), (∀ ch ∈ html.data, ch ≠ '\\') →
      find_link version html = Except.error linkNotFoundMsg := by
  intro ver html hbs
  rw [find_link]
  cases hs : searchPattern ver.data html.data with
  | none => rfl
  | some u => exact absurd rfl (hbs '\\' (searchPattern_bs hs))

theorem find_link_requires_backslash_witness :
    find_link "6000.0.58f2" goodPage = Except.error linkNotFoundMsg :=
  find_link_requires_backslash "6000.0.58f2" goodPage (by decide)

/-- Claim C4 (corrected): a 404 on the primary page triggers exactly one
retry, at the same URL template instantiated with the normalized version
(first conjunct: the request trace).  Any other non-success status on the
primary fetch raises the pipeline error kind `DownloadError`, which the
`__main__` handler catches and maps to exit status 1 (second conjunct).  But a
failure on the retry is NOT converted: the fallback `urlopen` on line 72 sits
outside any `try`, so the `HTTPError` propagates and the handler does not
catch it (third conjunct). -/
theorem fetch_installer_url_status_handling :
    ∀ (http : String → FetchResult) (v : String),
      (http (pageUrl v) = FetchResult.httpError 404 →
        (fetch_installer_url http v).2 = [pageUrl v, pageUrl (sanitize_version v)]) ∧
      (∀ c, http (pageUrl v) = FetchResult.httpError c → c ≠ 404 →
        fetch_installer_url http v =
          (Except.error (PyError.downloadError (fetchFailMsg c)), [pageUrl v]) ∧
        handle_errors (Except.map (fun _ => 0) (fetch_installer_url http v).1) =
          ProcOutcome.exit 1) ∧
      (∀ c, http (pageUrl v) = FetchResult.httpError 404 →
        http (pageUrl (sanitize_version v)) = FetchResult.httpError c →
        (fetch_installer_url http v).1 = Except.error (PyError.httpError c) ∧
        handle_errors (Except.map (fun _ => 0) (fetch_installer_url http v).1) =
          ProcOutcome.uncaught (PyError.httpError c)) := by
  intro http v
  refine ⟨?_, ?_, ?_⟩
  · intro h404
    rw [fetch_installer_url, h404]
    dsimp only
    rw [if_pos rfl]
    cases http (pageUrl (sanitize_version v)) <;> rfl
  · intro c hc hne
    rw [fetch_installer_url, hc]
    dsimp only
    rw [if_neg hne]
    exact ⟨rfl, rfl⟩
  · intro c h404 hfb
    rw [fetch_installer_url, h404]
    dsimp only
    rw [if_pos rfl, hfb]
    exact ⟨rfl, rfl⟩

/-- Claim C4 as stated is false: with a primary 404 and a failing retry, the
error escaping `fetch_installer_url` is the raw `HTTPError`, not the pipeline
error kind `DownloadError`, and the `__main__` handler does not map it to
exit status 1 — it propagates uncaught. -/
theorem fetch_retry_failure_uncaught :
    (fetch_installer_url http404then500 "9.9.9f1").1 =
      Except.error (PyError.httpError 500) ∧
    handle_errors (Except.map (fun _ => 0)
        (fetch_installer_url http404then500 "9.9.9f1").1) =
      ProcOutcome.uncaught (PyError.httpError 500) ∧
    ProcOutcome.uncaught (PyError.httpError 500) ≠ ProcOutcome.exit 1 :=
  ⟨rfl, rfl, by decide⟩

theorem fetch_installer_url_status_handling_witness :
    (fetch_installer_url http404then500 "9.9.9f1").2 =
      [pageUrl "9.9.9f1", pageUrl (sanitize_version "9.9.9f1")] ∧
    fetch_installer_url (fun _ => FetchResult.httpError 500) "9.9.9f1" =
      (Except.error (PyError.downloadError (fetchFailMsg 500)), [pageUrl "9.9.9f1"]) ∧
    (fetch_installer_url http404then500 "9.9.9f1").1 =
      Except.error (PyError.httpError 500) :=
  ⟨(fetch_installer_url_status_handling http404then500 "9.9.9f1").1 rfl,
    ((fetch_installer_url_status_handling (fun _ => FetchResult.httpError 500)
      "9.9.9f1").2.1 500 rfl (by decide)).1,
    ((fetch_installer_url_status_handling http404then500 "9.9.9f1").2.2 500 rfl rfl).1⟩

/-- Claim C10: when the version string is already normalized, the fallback URL
built on line 66 coincides with the primary URL of line 53, so on a 404 the
single retry requests exactly the same page again. -/
theorem fetch_fallback_same_url :
    ∀ (http : String → FetchResult) (v : String),
      sanitize_version v = v → http (pageUrl v) = FetchResult.httpError 404 →
      (fetch_installer_url http v).2 = [pageUrl v, pageUrl v] := by
  intro http v hs h404
  rw [fetch_installer_url, h404]
  dsimp only
  rw [if_pos rfl, hs]
  cases http (pageUrl v) <;> rfl

theorem fetch_fallback_same_url_witness :
    sanitize_version "9.9.9" = "9.9.9" ∧
    (fetch_installer_url (fun _ => FetchResult.httpError 404) "9.9.9").2 =
      [pageUrl "9.9.9", pageUrl "9.9.9"] :=
  ⟨by decide, fetch_fallback_same_url (fun _ => FetchResult.httpError 404) "9.9.9"
    (by decide) rfl⟩

theorem natListLt_eq_of_false :
    ∀ u v : List Nat, natListLt u v = false → natListLt v u = false → u = v := by
  intro u
  induction u with
  | nil =>
    intro v h1 _
    cases v with
    | nil => rfl
    | cons b bs => exact absurd h1 (by simp [natListLt])
  | cons a as ih =>
    intro v h1 h2
    cases v with
    | nil => exact absurd h2 (by simp [natListLt])
    | cons b bs =>
      rw [natListLt] at h1 h2
      by_cases hab : a < b
      · rw [if_pos hab] at h1; exact absurd h1 (by simp)
      · by_cases hba : b < a
        · rw [if_pos hba] at h2; exact absurd h2 (by simp)
        · rw [if_neg hab, if_neg hba] at h1
          rw [if_neg hba, if_neg hab] at h2
          have : a = b := by omega
          rw [this, ih bs h1 h2]

theorem natListLt_trans :
    ∀ u v w : List Nat, natListLt u v = true → natListLt v w = true →
      natListLt u w = true := by
  intro u
  induction u with
  | nil =>
    intro v w h1 h2
    cases v with
    | nil => exact absurd h1 (by simp [natListLt])
    | cons b bs =>
      cases w with
      | nil => exact absurd h2 (by simp [natListLt])
      | cons c cs => simp [natListLt]
  | cons a as ih =>
    intro v w h1 h2
    cases v with
    | nil => exact absurd h1 (by simp [natListLt])
    | cons b bs =>
      cases w with
      | nil => exact absurd h2 (by simp [natListLt])
      | cons c cs =>
        rw [natListLt] at h1 h2 ⊢
        by_cases hab : a < b
        · by_cases hbc : b < c
          · rw [if_pos (by omega : a < c)]
          · rw [if_neg hbc] at h2
            by_cases hcb : c < b
            · rw [if_pos hcb] at h2; exact absurd h2 (by simp)
            · have : b = c := by omega
              rw [if_pos (by omega : a < c)]
        · rw [if_neg hab] at h1
          by_cases hba : b < a
          · rw [if_pos hba] at h1; exact absurd h1 (by simp)
          · rw [if_neg hba] at h1
            have hab2 : a = b := by omega
            by_cases hbc : b < c
            · rw [if_pos (by omega : a < c)]
            · rw [if_neg hbc] at h2
              by_cases hcb : c < b
              · rw [if_pos hcb] at h2; exact absurd h2 (by simp)
              · rw [if_neg hcb] at h2
                rw [if_neg (by omega : ¬ a < c), if_neg (by omega : ¬ c < a)]
                exact ih bs cs h1 h2

theorem partsLe_total : ∀ u v : List String, partsLe u v = true ∨ partsLe v u = true := by
  intro u
  induction u with
  | nil => intro v; exact Or.inl rfl
  | cons a as ih =>
    intro v
    cases v with
    | nil => exact Or.inr rfl
    | cons b bs =>
      by_cases hab : natListLt (strKey a) (strKey b) = true
      · exact Or.inl (by rw [partsLe, if_pos hab])
      · by_cases hba : natListLt (strKey b) (strKey a) = true
        · exact Or.inr (by rw [partsLe, if_pos hba])
        · rcases ih bs with h | h
          · refine Or.inl ?_
            rw [partsLe, if_neg hab, if_neg hba]
            exact h
          · refine Or.inr ?_
            rw [partsLe, if_neg hba, if_neg hab]
            exact h

theorem partsLe_trans :
    ∀ u v w : List String, partsLe u v = true → partsLe v w = true →
      partsLe u w = true := by
  intro u
  induction u with
  | nil => intro v w _ _; rfl
  | cons a as ih =>
    intro v w h1 h2
    cases v with
    | nil => exact absurd h1 (by simp [partsLe])
    | cons b bs =>
      cases w with
      | nil => exact absurd h2 (by simp [partsLe])
      | cons c cs =>
        rw [partsLe] at h1 h2 ⊢
        by_cases hab : natListLt (strKey a) (strKey b) = true
        · by_cases hbc : natListLt (strKey b) (strKey c) = true
          · rw [if_pos (natListLt_trans _ _ _ hab hbc)]
          · rw [if_neg hbc] at h2
            by_cases hcb : natListLt (strKey c) (strKey b) = true
            · rw [if_pos hcb] at h2; exact absurd h2 (by simp)
            · have hbceq : strKey b = strKey c :=
                natListLt_eq_of_false _ _ (by simpa using hbc) (by simpa using hcb)
              rw [if_pos (by rw [← hbceq]; exact hab)]
        · rw [if_neg hab] at h1
          by_cases hba : natListLt (strKey b) (strKey a) = true
          · rw [if_pos hba] at h1; exact absurd h1 (by simp)
          · rw [if_neg hba] at h1
            have habeq : strKey a = strKey b :=
              natListLt_eq_of_false _ _ (by simpa using hab) (by simpa using hba)
            by_cases hbc : natListLt (strKey b) (strKey c) = true
            · rw [if_pos (by rw [habeq]; exact hbc)]
            · rw [if_neg hbc] at h2
              by_cases hcb : natListLt (strKey c) (strKey b) = true
              · rw [if_pos hcb] at h2; exact absurd h2 (by simp)
              · rw [if_neg hcb] at h2
                rw [if_neg (by rw [habeq]; exact hbc),
                  if_neg (by rw [habeq]; exact hcb)]
                exact ih bs cs h1 h2

theorem fileLe_total : ∀ f g : SrcFile, fileLe f g ∨ fileLe g f :=
  fun f g => partsLe_total f.parts g.parts

theorem fileLe_trans : ∀ f g h : SrcFile, fileLe f g → fileLe g h → fileLe f h :=
  fun _ _ _ h1 h2 => partsLe_trans _ _ _ h1 h2

theorem sortFiles_perm (files : List SrcFile) : List.Perm (sortFiles files) files :=
  List.perm_insertionSort fileLe files

theorem sortFiles_sorted (files : List SrcFile) :
    List.Sorted fileLe (sortFiles files) :=
  @List.sorted_insertionSort SrcFile fileLe _ ⟨fileLe_total⟩ ⟨fileLe_trans⟩ files

theorem addEntries_ok_of :
    ∀ (fs : List SrcFile) (seen : List String),
      (fs.map baseName).Nodup → (∀ n ∈ fs.map baseName, n ∉ seen) →
      addEntries fs seen = Except.ok (fs.map entryOf) := by
  intro fs
  induction fs with
  | nil => intro seen _ _; rfl
  | cons f t ih =>
    intro seen hnd hdis
    have hf : baseName f ∉ seen :=
      hdis (baseName f) (by simp)
    have hnd' : (t.map baseName).Nodup := (List.nodup_cons.mp (by simpa using hnd)).2
    have hhead : baseName f ∉ t.map baseName :=
      (List.nodup_cons.mp (by simpa using hnd)).1
    have hdis' : ∀ n ∈ t.map baseName, n ∉ baseName f :: seen := by
      intro n hn
      rw [List.mem_cons]
      rintro (h | h)
      · rw [h] at hn; exact hhead hn
      · exact hdis n (by simp [hn]) h
    rw [addEntries, if_neg hf, ih (baseName f :: seen) hnd' hdis']
    rfl

theorem addEntries_ok_names :
    ∀ (fs : List SrcFile) (seen : List String) (es : List ZipEntry),
      addEntries fs seen = Except.ok es →
      (fs.map baseName).Nodup ∧ ∀ n ∈ fs.map baseName, n ∉ seen := by
  intro fs
  induction fs with
  | nil => intro seen es _; exact ⟨List.nodup_nil, by simp⟩
  | cons f t ih =>
    intro seen es h
    rw [addEntries] at h
    by_cases hf : baseName f ∈ seen
    · rw [if_pos hf] at h; exact absurd h (by simp)
    · rw [if_neg hf] at h
      cases hrec : addEntries t (baseName f :: seen) with
      | error m => rw [hrec] at h; exact absurd h (by simp)
      | ok es' =>
        obtain ⟨hnd', hdis'⟩ := ih (baseName f :: seen) es' hrec
        constructor
        · rw [List.map_cons, List.nodup_cons]
          refine ⟨fun hmem => ?_, hnd'⟩
          exact hdis' (baseName f) hmem (List.mem_cons_self _ _)
        · intro n hn
          rw [List.map_cons, List.mem_cons] at hn
          rcases hn with hn | hn
          · rw [hn]; exact hf
          · intro hmem
            exact hdis' n hn (List.mem_cons_of_mem _ hmem)

theorem addEntries_error_shape :
    ∀ (fs : List SrcFile) (seen : List String) (m : String),
      addEntries fs seen = Except.error m →
      ∃ n, m = dupMsgFor n ∧ n ∈ fs.map baseName := by
  intro fs
  induction fs with
  | nil => intro seen m h; exact absurd h (by simp [addEntries])
  | cons f t ih =>
    intro seen m h
    rw [addEntries] at h
    by_cases hf : baseName f ∈ seen
    · rw [if_pos hf] at h
      have : m = dupMsgFor (baseName f) := by simpa using h.symm
      exact ⟨baseName f, this, by simp⟩
    · rw [if_neg hf] at h
      cases hrec : addEntries t (baseName f :: seen) with
      | ok es => rw [hrec] at h; exact absurd h (by simp)
      | error m' =>
        rw [hrec] at h
        have hm : m' = m := by simpa using h
        obtain ⟨n, hn1, hn2⟩ := ih (baseName f :: seen) m' hrec
        exact ⟨n, by rw [← hm, hn1], by simp [hn2]⟩

/-- Claim C8: repackaging a subtree with no regular files fails with the
empty-source error; the check precedes opening the archive, and the error
result carries no archive. -/
theorem make_zip_empty_error : make_zip ([] : List SrcFile) = Except.error emptyMsg := rfl

/-- Claim C5: if the source files are nonempty and their base names are
pairwise distinct, `make_zip` succeeds, the archive holds exactly the entries
of the files sorted by full path — each named by base name only, with the
file's exact bytes, compressed (deflated) — and those entries are a
permutation of one entry per source file. -/
theorem make_zip_success_spec :
    ∀ files : List SrcFile, files ≠ [] → (files.map baseName).Nodup →
      make_zip files = Except.ok ((sortFiles files).map entryOf) ∧
      ((sortFiles files).map entryOf).Perm (files.map entryOf) ∧
      List.Sorted fileLe (sortFiles files) := by
  intro files hne hnd
  have hperm : List.Perm (sortFiles files) files := sortFiles_perm files
  have hnames : ((sortFiles files).map baseName).Nodup :=
    ((hperm.map baseName).nodup_iff).mpr hnd
  refine ⟨?_, hperm.map entryOf, sortFiles_sorted files⟩
  cases hs : sortFiles files with
  | nil =>
    have hl := hperm.length_eq
    rw [hs] at hl
    exact absurd (List.eq_nil_of_length_eq_zero hl.symm) hne
  | cons f fs =>
    rw [make_zip, hs]
    rw [hs] at hnames
    exact addEntries_ok_of (f :: fs) [] hnames (by simp)

theorem make_zip_success_spec_witness :
    make_zip [fileFoo, fileBar] =
      Except.ok ((sortFiles [fileFoo, fileBar]).map entryOf) ∧
    ((sortFiles [fileFoo, fileBar]).map entryOf).Perm
      ([fileFoo, fileBar].map entryOf) ∧
    List.Sorted fileLe (sortFiles [fileFoo, fileBar]) :=
  make_zip_success_spec [fileFoo, fileBar] (by decide) (by decide)

/-- Claim C2: whenever two files at different paths share a base name,
`make_zip` fails with the duplicate-file-name error naming one of the base
names, and returns no archive.  The files are processed in full-path-sorted
order, so on the spec's example (`a/x.dll` and `b/x.dll`) the error is raised
at the second sorted duplicate and is independent of the input order. -/
theorem make_zip_duplicate_error :
    (∀ (files : List SrcFile) (f g : SrcFile), f ∈ files → g ∈ files →
      f.parts ≠ g.parts → baseName f = baseName g →
      ∃ n, make_zip files = Except.error (dupMsgFor n) ∧ n ∈ files.map baseName) ∧
    make_zip [fileBX, fileAX] = Except.error (dupMsgFor "x.dll") ∧
    make_zip [fileBX, fileAX] = make_zip [fileAX, fileBX] := by
  refine ⟨?_, rfl, rfl⟩
  intro files f g hf hg hparts hbase
  have hfg : f ≠ g := fun h => hparts (by rw [h])
  have hnotnd : ¬ (files.map baseName).Nodup := by
    intro hnd
    exact hfg (List.inj_on_of_nodup_map hnd hf hg hbase)
  have hperm : List.Perm (sortFiles files) files := sortFiles_perm files
  cases hs : sortFiles files with
  | nil =>
    have hl := hperm.length_eq
    rw [hs] at hl
    rw [List.eq_nil_of_length_eq_zero hl.symm] at hf
    exact absurd hf (List.not_mem_nil f)
  | cons a fs =>
    have hnotnd' : ¬ ((a :: fs).map baseName).Nodup := by
      intro hnd
      exact hnotnd (((hperm.map baseName).nodup_iff).mp (by rw [hs]; exact hnd))
    cases haE : addEntries (a :: fs) [] with
    | ok es =>
      exact absurd (addEntries_ok_names (a :: fs) [] es haE).1 hnotnd'
    | error m =>
      obtain ⟨n, hn1, hn2⟩ := addEntries_error_shape (a :: fs) [] m haE
      refine ⟨n, ?_, ?_⟩
      · have hres : addEntries (a :: fs) [] = Except.error (dupMsgFor n) := by
          rw [haE, hn1]
        rw [make_zip, hs]
        exact hres
      · have : n ∈ (sortFiles files).map baseName := by rw [hs]; exact hn2
        exact (hperm.map baseName).mem_iff.mp this

theorem make_zip_duplicate_error_witness :
    ∃ n, make_zip [fileAX, fileBX] = Except.error (dupMsgFor n) ∧
      n ∈ [fileAX, fileBX].map baseName :=
  make_zip_duplicate_error.1 [fileAX, fileBX] fileAX fileBX (by decide) (by decide)
    (by decide) (by decide)

theorem find_data_eq :
    ∀ entries : List FsEntry,
      ((entries.filter isManagedCandidate).map FsEntry.parts).find? parentIsData =
        Option.map FsEntry.parts (entries.find? candData) := by
  intro entries
  induction entries with
  | nil => rfl
  | cons e t ih =>
    by_cases hc : isManagedCandidate e = true
    · rw [List.filter_cons_of_pos hc, List.map_cons]
      by_cases hd : parentIsData e.parts = true
      · have hcd : candData e = true := by simp [candData, hc, hd]
        rw [List.find?_cons_of_pos _ hd, List.find?_cons_of_pos _ hcd]
        rfl
      · have hcd : ¬ candData e = true := by
          intro h
          rw [candData, Bool.and_eq_true] at h
          exact hd h.2
        rw [List.find?_cons_of_neg _ hd, List.find?_cons_of_neg _ hcd]
        exact ih
    · have hcd : ¬ candData e = true := by
        intro h
        rw [candData, Bool.and_eq_true] at h
        exact hc h.1
      rw [List.filter_cons_of_neg hc, List.find?_cons_of_neg _ hcd]
      exact ih

theorem head_cand_eq :
    ∀ entries : List FsEntry,
      ((entries.filter isManagedCandidate).map FsEntry.parts).head? =
        Option.map FsEntry.parts (entries.find? isManagedCandidate) := by
  intro entries
  induction entries with
  | nil => rfl
  | cons e t ih =>
    by_cases hc : isManagedCandidate e = true
    · rw [List.filter_cons_of_pos hc, List.map_cons, List.head?_cons,
        List.find?_cons_of_pos _ hc]
      rfl
    · rw [List.filter_cons_of_neg hc, List.find?_cons_of_neg _ hc]
      exact ih

theorem locate_managed_eq (entries : List FsEntry) :
    locate_managed entries =
      match ((entries.filter isManagedCandidate).map FsEntry.parts).find?
          parentIsData with
      | some m => Except.ok m
      | none =>
        match (entries.filter isManagedCandidate).map FsEntry.parts with
        | c :: _ => Except.ok c
        | [] => Except.error managedNotFoundMsg := rfl

/-- Claim C6: `locate_managed` returns the first (in traversal order)
directory named `Managed` whose immediate parent directory is named `Data`
when one exists; otherwise the first directory named `Managed` at all;
otherwise it fails with the not-found error.  On the spec's preference
example, the candidate nested under `Data` wins over an earlier candidate
with a different parent. -/
theorem locate_managed_selection :
    (∀ (entries : List FsEntry) (e : FsEntry), entries.find? candData = some e →
      locate_managed entries = Except.ok e.parts) ∧
    (∀ (entries : List FsEntry) (e : FsEntry), entries.find? candData = none →
      entries.find? isManagedCandidate = some e →
      locate_managed entries = Except.ok e.parts) ∧
    (∀ entries : List FsEntry, entries.find? isManagedCandidate = none →
      locate_managed entries = Except.error managedNotFoundMsg) ∧
    locate_managed demoEntries = Except.ok ["Data", "Managed"] := by
  refine ⟨?_, ?_, ?_, rfl⟩
  · intro entries e he
    rw [locate_managed_eq, find_data_eq, he]
    rfl
  · intro entries e hnone he
    have hhead := head_cand_eq entries
    rw [he] at hhead
    rw [locate_managed_eq, find_data_eq, hnone]
    cases hcs : (entries.filter isManagedCandidate).map FsEntry.parts with
    | nil => rw [hcs] at hhead; exact absurd hhead (by simp)
    | cons c cs =>
      rw [hcs] at hhead
      have hce : c = e.parts := by simpa using hhead
      rw [hce]
      rfl
  · intro entries hnone2
    have hcd : entries.find? candData = none := by
      rw [List.find?_eq_none] at hnone2 ⊢
      intro x hx hpx
      rw [candData, Bool.and_eq_true] at hpx
      exact hnone2 x hx hpx.1
    have hhead := head_cand_eq entries
    rw [hnone2] at hhead
    have hnil : (entries.filter isManagedCandidate).map FsEntry.parts = [] :=
      List.head?_eq_none_iff.mp (by simpa using hhead)
    rw [locate_managed_eq, find_data_eq, hcd, hnil]
    rfl

theorem locate_managed_selection_witness :
    locate_managed [{ parts := ["Data", "Managed"], isDir := true }] =
      Except.ok ["Data", "Managed"] ∧
    locate_managed [{ parts := ["Other", "Managed"], isDir := true }] =
      Except.ok ["Other", "Managed"] ∧
    locate_managed [{ parts := ["Data"], isDir := true }] =
      Except.error managedNotFoundMsg :=
  ⟨locate_managed_selection.1 [{ parts := ["Data", "Managed"], isDir := true }]
      { parts := ["Data", "Managed"], isDir := true } rfl,
    locate_managed_selection.2.1 [{ parts := ["Other", "Managed"], isDir := true }]
      { parts := ["Other", "Managed"], isDir := true } rfl rfl,
    locate_managed_selection.2.2.1 [{ parts := ["Data"], isDir := true }] rfl⟩
